import Mathlib

/-!
Verification development for the iacta reaction-search code base.

The Python sources under scrutiny are `analysis.py` (trajectory
segmentation, species catalog, reaction-network assembly) and
`react_utils.py` (the constrained-scan driver).  Energies are `float`s in
the source; here they are embedded as rationals (`ℚ`), since every
operation the code performs on them is order-theoretic (comparisons,
`argmin`/`argmax`, subtraction).  Canonical identifiers (SMILES strings)
are embedded as `String`.

Python exceptions are modelled by `Option`/sum-shaped results: a `none`
result marks a raised exception (the relevant constructor is documented
at each definition).  External collaborators (the xtb optimization
engine, the canonicalization routines in `io_utils`) are modelled as
oracle parameters, as dictated by the spec's external-interface
contracts.
-/

namespace Iacta

/-! ### Basic list utilities mirroring the numpy/python primitives -/

/-- Model of `numpy.argmin`: index of the first occurrence of the minimum
value.  `numpy` raises on an empty array; the `[]` case returns the junk
value `0` and every use below is guarded by a nonemptiness fact. -/
def npArgmin : List ℚ → Nat
  | [] => 0
  | [_] => 0
  | x :: y :: rest =>
    let r := npArgmin (y :: rest)
    if (y :: rest).getD r 0 < x then r + 1 else 0

/-- Model of `numpy.argmax`: index of the first occurrence of the maximum
value (junk value `0` on the empty list, always guarded). -/
def npArgmax : List ℚ → Nat
  | [] => 0
  | [_] => 0
  | x :: y :: rest =>
    let r := npArgmax (y :: rest)
    if x < (y :: rest).getD r 0 then r + 1 else 0

/-- Python slice `l[a:b]` for `0 ≤ a ≤ b` (as used throughout
`analysis.py`). -/
def slice (l : List ℚ) (a b : Nat) : List ℚ :=
  (l.drop a).take (b - a)

/-- Maximum of a list of energies, `none` on the empty list.  Used to
express the spec's phrase "the maximum energy strictly between the two
occurrence indices". -/
def listMaxO : List ℚ → Option ℚ
  | [] => none
  | x :: xs =>
    match listMaxO xs with
    | none => some x
    | some m => some (max x m)

/-- Python `"%4.4i" % n`: decimal rendering of `n` zero-padded to at
least four digits. -/
def fmt4 (n : Nat) : String :=
  let s := toString n
  String.mk (List.replicate (4 - s.length) '0') ++ s

/-- Python `list.index`: index of the first occurrence (callers guard
membership, as `list.index` raises `ValueError` otherwise). -/
def pyIndex (x : String) : List String → Nat
  | [] => 0
  | y :: ys => if y = x then 0 else pyIndex x ys + 1

/-- First-occurrence deduplication, parameterised by the already-seen
elements. -/
def dedupFOGo (seen : List String) : List String → List String
  | [] => []
  | x :: xs => if x ∈ seen then dedupFOGo seen xs else x :: dedupFOGo (x :: seen) xs

/-- First-occurrence deduplication: one canonical enumeration of
`set(l)`. -/
def dedupFO (l : List String) : List String :=
  dedupFOGo [] l

/-! ### TrajectorySegmenter: `analysis.postprocess_reaction`

Lines 31-73 of `analysis.py`: partition the trajectory into maximal runs
of identical canonical identifier, pick each region's energy minimum,
keep it only when it is a strict local minimum of the whole trajectory,
then interleave the maxima between consecutive accepted minima. -/

/-- The region-detection loop of `postprocess_reaction` (lines 35-44).
`rest` is the part of `smiles` not yet scanned, `last` is `mols[-1]`,
`si` the enumeration index and `rstart` the start of the current run.
When the scan ends the trailing region `(rstart, len(smiles))` is
appended. -/
def regionsGo : List String → String → Nat → Nat → List (Nat × Nat)
  | [], _, si, rstart => [(rstart, si)]
  | s :: rest, last, si, rstart =>
    if s = last then regionsGo rest last (si + 1) rstart
    else (rstart, si) :: regionsGo rest s (si + 1) si

/-- Maximal runs of identical identifier.  On the empty trajectory
`postprocess_reaction` raises `IndexError` at `smiles[0]` before this
loop; the `[]` case is never consumed (see `postprocessCore`). -/
def regionsOf : List String → List (Nat × Nat)
  | [] => []
  | s :: rest => regionsGo (s :: rest) s 0 0

/-- Lines 47-59 of `analysis.py` for a single region `(start, end)`:
the candidate index is the region-local argmin; it is accepted only if
neither global neighbour strictly undercuts it. -/
def iminStable (smiles : List String) (E : List ℚ) (r : Nat × Nat) : Option Nat :=
  let imin := npArgmin (slice E r.1 r.2) + r.1
  if (imin < smiles.length - 1 ∧ E.getD imin 0 > E.getD (imin + 1) 0) ∨
     (0 < imin ∧ E.getD imin 0 > E.getD (imin - 1) 0) then none
  else some imin

/-- Accepted stable minima (`imins` in the source), one candidate per
region. -/
def iminsOf (smiles : List String) (E : List ℚ) : List Nat :=
  (regionsOf smiles).filterMap (iminStable smiles E)

/-- Lines 65-73 of `analysis.py`: walk consecutive accepted minima; the
maximum between two minima is inserted as a transition point when it
differs from both of them. -/
def ipotsGo (E : List ℚ) : Nat → List Nat → List (Nat × Bool)
  | _, [] => []
  | prev, m :: rest =>
    let imax := npArgmax (slice E prev m) + prev
    (if imax ≠ m ∧ imax ≠ prev then [(imax, false)] else []) ++
      ((m, true) :: ipotsGo E m rest)

/-- The segmentation core of `postprocess_reaction` (lines 31-73),
producing the `ipots` index list and the parallel `stable` flag list.
`none` models a raised Python exception: `IndexError` at `smiles[0]`
when the trajectory is empty, and `IndexError` at `imins[0]` (line 62)
when no region contributes an accepted stable minimum. -/
def postprocessCore (smiles : List String) (E : List ℚ) :
    Option (List Nat × List Bool) :=
  match smiles with
  | [] => none
  | _ :: _ =>
    match iminsOf smiles E with
    | [] => none
    | i0 :: rest =>
      let pts := (i0, true) :: ipotsGo E i0 rest
      some (pts.map Prod.fst, pts.map Prod.snd)

/-- The pathway record emitted by `postprocess_reaction` (the
json-serialised dictionary of lines 105-112, restricted to the fields
any later stage reads). -/
structure PathRecord where
  E : List ℚ
  SMILES_c : List String
  SMILES_i : List String
  is_stable : List Bool
  stretch_points : List Nat
  folder : String
deriving Repr, DecidableEq

/-- Model of `analysis.postprocess_reaction`.  The re-relaxation of
stable structures (lines 79-95: `xtb.optimize` at level `vtight`
followed by re-reading both SMILES variants and the energy) is an
external-collaborator call; it is abstracted by the oracle `reopt`,
mapping a stable trajectory index to the re-relaxed
`(chiral smiles, isomeric smiles, energy)`.  Transition points keep the
as-scanned identifiers and energy (lines 96-103).  `none` models a
raised exception (see `postprocessCore`). -/
def postprocess_reaction (reopt : Nat → String × String × ℚ) (folder : String)
    (smiles smiles_iso : List String) (E : List ℚ) : Option PathRecord :=
  match postprocessCore smiles E with
  | none => none
  | some (ipots, flags) =>
    let pts := ipots.zip flags
    some {
      E := pts.map fun p => if p.2 then (reopt p.1).2.2 else E.getD p.1 0
      SMILES_c := pts.map fun p => if p.2 then (reopt p.1).1 else smiles.getD p.1 ""
      SMILES_i := pts.map fun p => if p.2 then (reopt p.1).2.1 else smiles_iso.getD p.1 ""
      is_stable := flags
      stretch_points := ipots
      folder := folder }

/-! ### PathwayRecord rows and SpeciesCatalog: `analysis.get_species_table`

`get_species_table` iterates over the parsed pathway dataframe; each row
carries parallel per-stretch-point columns.  `smiles` stands for the
configured `chemical_id` column (default `SMILES_i`). -/

/-- One row of the pathways dataframe, restricted to the columns read by
`get_species_table` and `reaction_network_layer`:  the `chemical_id`
SMILES column, the per-point energies `E`, the stability flags, the
trajectory indices `stretch_points`, the source `folder` and the `mtdi`
metadata. -/
structure PathwayRow where
  smiles : List String
  E : List ℚ
  is_stable : List Bool
  stretch_points : List Nat
  folder : String
  mtdi : Int
deriving Repr, DecidableEq

/-- One value of the `species` dictionary built by `get_species_table`
(lines 231-242 of `analysis.py`). -/
structure SpeciesEntry where
  smiles : String
  E : ℚ
  file : String
  position : Nat
deriving Repr, DecidableEq

/-- Python `dict` assignment `species[smi] = v`: replace in place when
the key exists, append otherwise (insertion order preserved). -/
def dictSet : List (String × SpeciesEntry) → String → SpeciesEntry →
    List (String × SpeciesEntry)
  | [], k, v => [(k, v)]
  | (k', v') :: rest, k, v =>
    if k' = k then (k, v) :: rest else (k', v') :: dictSet rest k v

/-- The species entry a row proposes for its `k`-th stretch point
(note the source concatenates `row.folder + "stable_%4.4i.xyz"` with no
path separator). -/
def entryOf (row : PathwayRow) (k : Nat) : SpeciesEntry :=
  { smiles := row.smiles.getD k ""
    E := row.E.getD k 0
    file := row.folder ++ "stable_" ++ fmt4 (row.stretch_points.getD k 0) ++ ".xyz"
    position := row.stretch_points.getD k 0 }

/-- Lines 227-242 of `analysis.py` for one stretch point `k` of one row:
skip unstable points; insert an absent key; on collision replace only
when the new energy is strictly lower. -/
def processPoint (species : List (String × SpeciesEntry)) (row : PathwayRow)
    (k : Nat) : List (String × SpeciesEntry) :=
  if row.is_stable.getD k false = true then
    let smi := row.smiles.getD k ""
    match species.lookup smi with
    | some old =>
        if row.E.getD k 0 < old.E then dictSet species smi (entryOf row k)
        else species
    | none => dictSet species smi (entryOf row k)
  else species

/-- The inner loop `for k in range(len(row.is_stable))`. -/
def processRow (species : List (String × SpeciesEntry)) (row : PathwayRow) :
    List (String × SpeciesEntry) :=
  (List.range row.is_stable.length).foldl (fun sp k => processPoint sp row k) species

/-- The full species dictionary accumulated over all pathway rows in
order. -/
def speciesDict (pathways : List PathwayRow) : List (String × SpeciesEntry) :=
  pathways.foldl processRow []

/-- Model of `analysis.get_species_table`.  After folding all rows, the
source raises `SystemExit(0)` if the dictionary is empty (lines 244-246);
`Except.error c` models `raise SystemExit(c)` with exit status `c`.
Otherwise the entries are emitted sorted ascending by energy
(`sort_values('E')`). -/
def get_species_table (pathways : List PathwayRow) :
    Except Nat (List SpeciesEntry) :=
  let species := speciesDict pathways
  if species.isEmpty then Except.error 0
  else Except.ok (((species.map Prod.snd)).mergeSort fun a b => decide (a.E ≤ b.E))

/-! ### ReactionNetworkBuilder stage 1: `analysis.reaction_network_layer`

Lines 258-350 of `analysis.py`: for every pathway containing the
reactant, emit candidate edges to every stable, non-excluded occurrence
after (forward) and before (backward) the reactant occurrence, dropping
candidates whose scan maximum does not strictly exceed both endpoint
energies. -/

/-- One row of the dataframe returned by `reaction_network_layer`. -/
structure Edge where
  from_ : String
  to_ : String
  E_TS : ℚ
  barrier : ℚ
  dE : ℚ
  local_dE : ℚ
  i_TS : Nat
  i_P : Nat
  i_R : Nat
  folder : String
  mtdi : Int
deriving Repr, DecidableEq

/-- The forward candidate at target position `j > i` (lines 280-306).
`speciesE` models the catalog lookup `species.E.loc`; `none` means the
candidate is skipped (unstable or excluded target, or transition-state
energy not exceeding both endpoints). -/
def forwardEdge (speciesE : String → ℚ) (reactant : String)
    (exclude : List String) (row : PathwayRow) (i j : Nat) : Option Edge :=
  if row.is_stable.getD j false = true ∧ row.smiles.getD j "" ∉ exclude then
    let tspos := npArgmax (slice row.E i j) + i
    let ts := row.E.getD tspos 0
    if ts ≤ row.E.getD i 0 ∨ ts ≤ row.E.getD j 0 then none
    else
      let product := row.smiles.getD j ""
      some {
        from_ := reactant
        to_ := product
        E_TS := ts
        barrier := ts - row.E.getD i 0
        dE := speciesE product - speciesE reactant
        local_dE := row.E.getD j 0 - row.E.getD i 0
        i_TS := row.stretch_points.getD tspos 0
        i_P := row.stretch_points.getD j 0
        i_R := row.stretch_points.getD i 0
        folder := row.folder
        mtdi := row.mtdi }
  else none

/-- The backward candidate at target position `j < i` (lines 308-334):
identical except that the scan maximum is taken over `E[j:i]`. -/
def backwardEdge (speciesE : String → ℚ) (reactant : String)
    (exclude : List String) (row : PathwayRow) (i j : Nat) : Option Edge :=
  if row.is_stable.getD j false = true ∧ row.smiles.getD j "" ∉ exclude then
    let tspos := npArgmax (slice row.E j i) + j
    let ts := row.E.getD tspos 0
    if ts ≤ row.E.getD i 0 ∨ ts ≤ row.E.getD j 0 then none
    else
      let product := row.smiles.getD j ""
      some {
        from_ := reactant
        to_ := product
        E_TS := ts
        barrier := ts - row.E.getD i 0
        dE := speciesE product - speciesE reactant
        local_dE := row.E.getD j 0 - row.E.getD i 0
        i_TS := row.stretch_points.getD tspos 0
        i_P := row.stretch_points.getD j 0
        i_R := row.stretch_points.getD i 0
        folder := row.folder
        mtdi := row.mtdi }
  else none

/-- The edges one pathway row contributes: nothing when the reactant
does not occur; otherwise the forward candidates for
`j in range(i+1, len(stable))` followed by the backward candidates for
`j in range(i-1, -1, -1)`, with `i = smiles.index(reactant)`. -/
def layerRow (speciesE : String → ℚ) (reactant : String)
    (exclude : List String) (row : PathwayRow) : List Edge :=
  if reactant ∈ row.smiles then
    let i := pyIndex reactant row.smiles
    (List.range' (i + 1) (row.is_stable.length - (i + 1))).filterMap
        (fun j => forwardEdge speciesE reactant exclude row i j) ++
      (List.range i).reverse.filterMap
        (fun j => backwardEdge speciesE reactant exclude row i j)
  else []

/-- Model of `analysis.reaction_network_layer`: rows are processed in
dataframe order and their edge lists concatenated. -/
def reaction_network_layer (pathways : List PathwayRow) (reactant : String)
    (speciesE : String → ℚ) (exclude : List String) : List Edge :=
  pathways.foldr (fun row acc => layerRow speciesE reactant exclude row ++ acc) []

/-! ### ReactionNetworkBuilder stage 2: `analysis.analyse_reaction_network`

Lines 353-448 of `analysis.py`: a FIFO frontier seeded with the caller's
reactants; each popped species generates its layer (excluding
`done + [current]`), the distinct destinations are processed in order,
each receiving the next sequential `reaction_id`, and previously-unseen
destinations are enqueued. -/

/-- One row of the `final_reactions` summary table (lines 428-437). -/
structure ReactionRow where
  from_ : String
  to_ : String
  reaction_id : Nat
  dE : ℚ
  dE_TS : ℚ
  best_TS_pathway : String
  TS_index : Nat
  mtdi : Int
deriving Repr, DecidableEq

/-- Pandas `Series.idxmin` over a nonempty edge list: the first edge
attaining the minimal key. -/
def minByKey (key : Edge → ℚ) : Edge → List Edge → Edge
  | e, [] => e
  | e, x :: xs => minByKey key (if key x < key e then x else e) xs

/-- The `for p in products` body (lines 399-441), threading the frontier
`todo`, the id counter `iden` and the summary rows `acc`.  `conv` is the
unit conversion `hartree_ev * ev_kcalmol` imported from the `constants`
module (outside the analysed sources); `rl` is the `reaction_local`
flag.  The representative edge is `reacts.loc[reacts.barrier.idxmin()]`
when `rl` and `reacts.loc[reacts.E_TS.idxmin()]` otherwise.  A
destination with no matching edge is impossible (it came from the layer)
and is skipped, mirroring the fact that pandas would fail there. -/
def processProducts (conv : ℚ) (rl : Bool) (current : String) (E0 : ℚ)
    (layer : List Edge) :
    List String → List String → List String → Nat → List ReactionRow →
      List String × Nat × List ReactionRow
  | [], todo, _, iden, acc => (todo, iden, acc)
  | p :: ps, todo, done, iden, acc =>
    match layer.filter fun e => e.to_ = p with
    | [] => processProducts conv rl current E0 layer ps todo done iden acc
    | e :: es =>
      let best := minByKey (if rl then fun x => x.barrier else fun x => x.E_TS) e es
      let TS := if rl then best.barrier * conv else (best.E_TS - E0) * conv
      let dE := (if rl then best.local_dE else best.dE) * conv
      let acc' := acc ++ [⟨current, p, iden, dE, TS, best.folder, best.i_TS, best.mtdi⟩]
      let todo' := if p ∉ done ∧ p ∉ todo then todo ++ [p] else todo
      processProducts conv rl current E0 layer ps todo' done (iden + 1) acc'

/-- The `while todo` loop of `analyse_reaction_network` (lines 368-444).
Python's `sorted(list(set(layer.to)), key=...)` enumerates the distinct
destinations in an order determined by set hashing and then by the
configured ranking key; the composite is abstracted by `orderProducts`
applied to the first-occurrence deduplication — every concrete
behaviour of the source is `orderProducts` with `orderProducts l` a
permutation of `l`, and the development only ever assumes that.  `fuel`
bounds the number of loop iterations; the Python loop performs finitely
many, so its result is the model's value at any sufficiently large
fuel, while the theorems below hold at every fuel. -/
def analyseGo (orderProducts : List String → List String) (conv : ℚ) (rl : Bool)
    (speciesE : String → ℚ) (pathways : List PathwayRow) :
    Nat → List String → List String → Nat → List ReactionRow → List ReactionRow
  | 0, _, _, _, acc => acc
  | _ + 1, [], _, _, acc => acc
  | fuel + 1, current :: rest, done, iden, acc =>
    let layer := reaction_network_layer pathways current speciesE (done ++ [current])
    let products := orderProducts (dedupFO (layer.map fun e => e.to_))
    if products = [] then
      analyseGo orderProducts conv rl speciesE pathways fuel rest (done ++ [current]) iden acc
    else
      match processProducts conv rl current (speciesE current) layer products rest done iden acc with
      | (todo', iden', acc') =>
        analyseGo orderProducts conv rl speciesE pathways fuel todo' (done ++ [current]) iden' acc'

/-- Model of `analysis.analyse_reaction_network`, returning the
`final_reactions` summary rows in discovery order (`iden` starts at 1;
the companion `reactions_table` detail rows are stamped with the same
`reaction_id` values). -/
def analyse_reaction_network (fuel : Nat) (orderProducts : List String → List String)
    (conv : ℚ) (rl : Bool) (speciesE : String → ℚ) (pathways : List PathwayRow)
    (reactants : List String) : List ReactionRow :=
  analyseGo orderProducts conv rl speciesE pathways fuel reactants [] 1 []

/-! ### ConstraintScanDriver: `react_utils.successive_optimization` and
`react_utils.reaction_job`

The xtb engine is the external collaborator of spec section 6: each
constrained relaxation returns a status code and a relaxation log of
(structure, energy) frames.  The oracle maps the step number to the
engine's response (the evolving input structure is a function of the run
prefix, hence of the step number, for any fixed run). -/

/-- Engine response to one constrained relaxation: `ok error log` is a
returned status plus the relaxation-log frames read back by `traj2str`;
`raises` models the invocation itself raising a Python exception
(`subprocess` failures, timeouts, unreadable log). -/
inductive StepResult where
  | ok (error : Int) (log : List (String × ℚ))
  | raises
deriving Repr, DecidableEq

/-- Frame the source keeps as the step's sample:
`news[np.argmin(newe)]`. -/
def argminFrame (log : List (String × ℚ)) : String :=
  (log.map Prod.fst).getD (npArgmin (log.map Prod.snd)) ""

/-- Model of `np.min(newe)`: the minimum value, i.e. the value at
`np.argmin`. -/
def npMinVal (l : List ℚ) : ℚ :=
  l.getD (npArgmin l) 0

/-- Python `newe[-1]`: the last log energy, used by the threshold
check. -/
def lastE (log : List (String × ℚ)) : ℚ :=
  (log.map Prod.snd).getLastD 0

/-- The sample a successful step appends: lowest-energy frame of the
step's own log, with its energy. -/
def repOf (log : List (String × ℚ)) : String × ℚ :=
  (argminFrame log, npMinVal (log.map Prod.snd))

/-- Exit modes of the `for i in range(len(constraints))` loop (lines
175-205 of `react_utils.py`), with the samples collected so far.
`raised i acc` records an exception escaping step `i`: either the engine
invocation raised, or the engine succeeded with an empty log and
`np.argmin(newe)` raised `ValueError`. -/
inductive LoopExit where
  | completed (acc : List (String × ℚ))
  | errorBreak (i : Nat) (acc : List (String × ℚ))
  | thresholdBreak (acc : List (String × ℚ))
  | raised (i : Nat) (acc : List (String × ℚ))
deriving Repr, DecidableEq

/-- The stepping loop of `successive_optimization`: break before
collecting on a non-zero status; otherwise append the lowest-energy
frame of this step's log and break after collecting when the final log
energy exceeds `emax` while `barrier` is set. -/
def succLoop (engine : Nat → StepResult) (emax : ℚ) (barrier : Bool) :
    Nat → Nat → List (String × ℚ) → LoopExit
  | _, 0, acc => .completed acc
  | i, r + 1, acc =>
    match engine i with
    | .raises => .raised i acc
    | .ok e log =>
      if e ≠ 0 then .errorBreak i acc
      else
        match log with
        | [] => .raised i acc
        | _ :: _ =>
          let acc' := acc ++ [repOf log]
          if lastE log > emax ∧ barrier = true then .thresholdBreak acc'
          else succLoop engine emax barrier (i + 1) r acc'

/-- Observable outcome of one `successive_optimization` call.
`scratchCreated` records that the three `tempfile.mkstemp` scratch files
(`current`, `log`, `restart`, lines 163-165) were made; `cleanupRan`
records that the `os.close`/`os.remove` block (lines 207-213) executed —
the source has no `try`/`finally`, so that block is reached exactly when
no exception escapes the loop.  `engineFailedAt` is the step whose
engine invocation returned a non-zero status; on such a step the engine
collaborator writes the `failout` sentinel file passed to it (modelled
from the spec: the optimization engine and its failout mechanism live in
`xtb_utils`, outside the analysed sources). -/
structure SuccRun where
  scratchCreated : Bool
  raised : Bool
  structures : List String
  energies : List ℚ
  engineFailedAt : Option Nat
  cleanupRan : Bool
deriving Repr, DecidableEq

/-- Model of `react_utils.successive_optimization` for a schedule of `n`
constraints.  An empty schedule returns `[], []` before any scratch file
is created (lines 158-160). -/
def successive_optimization (engine : Nat → StepResult) (n : Nat) (emax : ℚ)
    (barrier : Bool) : SuccRun :=
  if n = 0 then ⟨false, false, [], [], none, false⟩
  else
    match succLoop engine emax barrier 0 n [] with
    | .completed acc => ⟨true, false, acc.map Prod.fst, acc.map Prod.snd, none, true⟩
    | .errorBreak i acc => ⟨true, false, acc.map Prod.fst, acc.map Prod.snd, some i, true⟩
    | .thresholdBreak acc => ⟨true, false, acc.map Prod.fst, acc.map Prod.snd, none, true⟩
    | .raised _ _ => ⟨true, true, [], [], none, false⟩

/-- Observable outcome of one evaluation of the closure built by
`react_utils.reaction_job`. -/
structure ReactOutcome where
  raised : Bool
  forwardRun : SuccRun
  backwardAttempted : Bool
  backwardRun : Option SuccRun
  dumped : Option (List String × List ℚ)
deriving Repr, DecidableEq

/-- Model of the inner `react_job` closure (lines 333-368 of
`react_utils.py`): run the forward chain over `constraints[mtd_index:]`
(`nf` steps, engine oracle `fengine`); if it collected nothing, return
with no backward attempt and no stitched output; otherwise run the
backward chain over `constraints[:mtd_index][::-1]` (`nb` steps,
`bengine`) and dump the stitched trajectory
`bstructs[::-1] + fstructs`.  `barrier` is left at its default `True` in
both calls, as in the source. -/
def react_job (fengine bengine : Nat → StepResult) (nf nb : Nat) (emax : ℚ) :
    ReactOutcome :=
  let f := successive_optimization fengine nf emax true
  if f.raised then ⟨true, f, false, none, none⟩
  else if f.structures = [] then ⟨false, f, false, none, none⟩
  else
    let b := successive_optimization bengine nb emax true
    if b.raised then ⟨true, f, true, some b, none⟩
    else
      ⟨false, f, true, some b,
        some (b.structures.reverse ++ f.structures, b.energies.reverse ++ f.energies)⟩

/-! ### Lemmas about the numpy primitives -/

theorem npArgmax_lt : ∀ (l : List ℚ), l ≠ [] → npArgmax l < l.length
  | [], h => absurd rfl h
  | [_], _ => by simp [npArgmax]
  | a :: b :: r, _ => by
    have ih := npArgmax_lt (b :: r) (by simp)
    simp only [npArgmax]
    split
    · simpa using Nat.succ_lt_succ ih
    · simp

theorem le_getD_npArgmax : ∀ (l : List ℚ), ∀ x ∈ l, x ≤ l.getD (npArgmax l) 0
  | [], x, hx => absurd hx (List.not_mem_nil x)
  | [a], x, hx => by
    simp only [npArgmax, List.getD_cons_zero]
    rcases List.mem_singleton.1 hx with rfl
    exact le_refl x
  | a :: b :: r, x, hx => by
    have ih := le_getD_npArgmax (b :: r)
    simp only [npArgmax]
    split
    · rename_i h
      rw [List.getD_cons_succ]
      rcases List.mem_cons.1 hx with rfl | hx'
      · exact le_of_lt h
      · exact ih x hx'
    · rename_i h
      rw [List.getD_cons_zero]
      rcases List.mem_cons.1 hx with rfl | hx'
      · exact le_refl x
      · exact le_trans (ih x hx') (not_lt.1 h)

theorem getD_npArgmax_mem (l : List ℚ) (h : l ≠ []) :
    l.getD (npArgmax l) 0 ∈ l := by
  rw [List.getD_eq_getElem l 0 (npArgmax_lt l h)]
  exact List.getElem_mem _

theorem npArgmin_lt : ∀ (l : List ℚ), l ≠ [] → npArgmin l < l.length
  | [], h => absurd rfl h
  | [_], _ => by simp [npArgmin]
  | a :: b :: r, _ => by
    have ih := npArgmin_lt (b :: r) (by simp)
    simp only [npArgmin]
    split
    · simpa using Nat.succ_lt_succ ih
    · simp

theorem getD_npArgmin_le : ∀ (l : List ℚ), ∀ x ∈ l, l.getD (npArgmin l) 0 ≤ x
  | [], x, hx => absurd hx (List.not_mem_nil x)
  | [a], x, hx => by
    simp only [npArgmin, List.getD_cons_zero]
    rcases List.mem_singleton.1 hx with rfl
    exact le_refl x
  | a :: b :: r, x, hx => by
    have ih := getD_npArgmin_le (b :: r)
    simp only [npArgmin]
    split
    · rename_i h
      rw [List.getD_cons_succ]
      rcases List.mem_cons.1 hx with rfl | hx'
      · exact le_of_lt h
      · exact ih x hx'
    · rename_i h
      rw [List.getD_cons_zero]
      rcases List.mem_cons.1 hx with rfl | hx'
      · exact le_refl x
      · exact le_trans (not_lt.1 h) (ih x hx')

theorem getD_npArgmin_mem (l : List ℚ) (h : l ≠ []) :
    l.getD (npArgmin l) 0 ∈ l := by
  rw [List.getD_eq_getElem l 0 (npArgmin_lt l h)]
  exact List.getElem_mem _

theorem slice_length (l : List ℚ) (a b : Nat) (hb : b ≤ l.length) :
    (slice l a b).length = b - a := by
  simp only [slice, List.length_take, List.length_drop]
  omega

theorem slice_ne_nil (l : List ℚ) (a b : Nat) (hab : a < b) (hb : b ≤ l.length) :
    slice l a b ≠ [] := by
  have := slice_length l a b hb
  intro h
  rw [h] at this
  simp at this
  omega

theorem slice_getD (l : List ℚ) (a b k : Nat) (hk : k < b - a) (hb : b ≤ l.length) :
    (slice l a b).getD k 0 = l.getD (a + k) 0 := by
  have h1 : k < (slice l a b).length := by rw [slice_length l a b hb]; exact hk
  have h2 : a + k < l.length := by omega
  rw [List.getD_eq_getElem _ 0 h1, List.getD_eq_getElem _ 0 h2]
  simp only [slice] at h1 ⊢
  rw [List.getElem_take, List.getElem_drop]

theorem getD_mem_slice (l : List ℚ) (a b k : Nat) (hk : k < b - a)
    (hb : b ≤ l.length) : l.getD (a + k) 0 ∈ slice l a b := by
  rw [← slice_getD l a b k hk hb]
  have h1 : k < (slice l a b).length := by rw [slice_length l a b hb]; exact hk
  rw [List.getD_eq_getElem _ 0 h1]
  exact List.getElem_mem _

theorem slice_cons (l : List ℚ) (a b : Nat) (hab : a < b) (hb : b ≤ l.length) :
    slice l a b = l.getD a 0 :: slice l (a + 1) b := by
  have ha : a < l.length := lt_of_lt_of_le hab hb
  simp only [slice]
  rw [List.drop_eq_getElem_cons ha]
  have hba : b - a = (b - (a + 1)) + 1 := by omega
  rw [hba, List.take_succ_cons, List.getD_eq_getElem l 0 ha]

theorem listMaxO_eq_none (l : List ℚ) : listMaxO l = none ↔ l = [] := by
  cases l with
  | nil => simp [listMaxO]
  | cons x xs =>
    simp only [listMaxO]
    cases listMaxO xs <;> simp

theorem listMaxO_mem : ∀ (l : List ℚ) (m : ℚ), listMaxO l = some m → m ∈ l
  | [], m, h => by simp [listMaxO] at h
  | x :: xs, m, h => by
    simp only [listMaxO] at h
    rcases hx : listMaxO xs with _ | m'
    · rw [hx] at h
      simp at h
      simp [h]
    · rw [hx] at h
      simp at h
      rcases max_choice x m' with hc | hc


      · rw [hc] at h
        simp [← h]
      · rw [hc] at h
        subst h
        exact List.mem_cons_of_mem x (listMaxO_mem xs m' hx)

theorem le_listMaxO : ∀ (l : List ℚ) (m : ℚ), listMaxO l = some m →
    ∀ x ∈ l, x ≤ m
  | [], m, h => by simp [listMaxO] at h
  | x :: xs, m, h => by
    simp only [listMaxO] at h
    rcases hx : listMaxO xs with _ | m'
    · rw [hx] at h
      simp at h
      intro y hy
      rcases List.mem_cons.1 hy with rfl | hy'
      · simp [h]
      · rw [listMaxO_eq_none] at hx
        subst hx
        simp at hy'
    · rw [hx] at h
      simp at h
      intro y hy
      rcases List.mem_cons.1 hy with rfl | hy'
      · rw [← h]; exact le_max_left _ _
      · exact le_trans (le_listMaxO xs m' hx y hy') (h ▸ le_max_right x m')

theorem pyIndex_lt : ∀ (l : List String) (x : String), x ∈ l → pyIndex x l < l.length
  | [], x, hx => absurd hx (List.not_mem_nil x)
  | y :: ys, x, hx => by
    simp only [pyIndex]
    split
    · simp
    · rename_i h
      have hx' : x ∈ ys := by
        rcases List.mem_cons.1 hx with rfl | hx'
        · exact absurd rfl h
        · exact hx'
      simpa using Nat.succ_lt_succ (pyIndex_lt ys x hx')

/-- The scan maximum over the half-open python slice `E[a:b]` strictly
exceeds both `E[a]` and a reference value `q` exactly when the maximum
of the open interior `E[a+1:b]` exists and strictly exceeds both.  This
is the bridge between the code's retention test (which includes the
left endpoint in the `argmax` window) and the spec's formulation over
the strict interior. -/
theorem slice_argmax_gt_iff (E : List ℚ) (a b : Nat) (q : ℚ) (hab : a < b)
    (hb : b ≤ E.length) :
    (E.getD a 0 < E.getD (npArgmax (slice E a b) + a) 0 ∧
      q < E.getD (npArgmax (slice E a b) + a) 0) ↔
    ∃ m, listMaxO (slice E (a + 1) b) = some m ∧ E.getD a 0 < m ∧ q < m := by
  have hsne : slice E a b ≠ [] := slice_ne_nil E a b hab hb
  have hidx : npArgmax (slice E a b) < (slice E a b).length := npArgmax_lt _ hsne
  have hlen : (slice E a b).length = b - a := slice_length E a b hb
  have hts : E.getD (npArgmax (slice E a b) + a) 0 =
      (slice E a b).getD (npArgmax (slice E a b)) 0 := by
    rw [Nat.add_comm]
    exact (slice_getD E a b _ (hlen ▸ hidx) hb).symm
  have hM_mem : (slice E a b).getD (npArgmax (slice E a b)) 0 ∈ slice E a b :=
    getD_npArgmax_mem _ hsne
  have hM_ge := le_getD_npArgmax (slice E a b)
  have hcons : slice E a b = E.getD a 0 :: slice E (a + 1) b := slice_cons E a b hab hb
  rw [hts]
  set M := (slice E a b).getD (npArgmax (slice E a b)) 0 with hMdef
  constructor
  · rintro ⟨h1, h2⟩
    have hMt : M ∈ slice E (a + 1) b := by
      rw [hcons] at hM_mem
      rcases List.mem_cons.1 hM_mem with hMa | hMt
      · exact absurd (hMa ▸ h1) (lt_irrefl _)
      · exact hMt
    rcases hmx : listMaxO (slice E (a + 1) b) with _ | m
    · rw [listMaxO_eq_none] at hmx
      rw [hmx] at hMt
      exact absurd hMt (List.not_mem_nil M)
    · have hMm : M ≤ m := le_listMaxO _ m hmx M hMt
      exact ⟨m, rfl, lt_of_lt_of_le h1 hMm, lt_of_lt_of_le h2 hMm⟩
  · rintro ⟨m, hmx, h1, h2⟩
    have hmem : m ∈ slice E a b := by
      rw [hcons]
      exact List.mem_cons_of_mem _ (listMaxO_mem _ m hmx)
    have hmM : m ≤ M := hM_ge m hmem
    exact ⟨lt_of_lt_of_le h1 hmM, lt_of_lt_of_le h2 hmM⟩

/-- C1.  In edge generation (`reaction_network_layer`), for a pathway
containing the reactant identifier (at first occurrence `i`) and a
stable, non-excluded occurrence `j` after it (forward direction) or
before it (backward direction), the candidate edge is retained — the
per-candidate constructor returns `some` — exactly when the maximum
energy strictly between the two occurrence indices exists and strictly
exceeds both the reactant-occurrence energy `E[i]` and the
product-occurrence energy `E[j]`.  The code's `argmax` window includes
the reactant-side endpoint, but the retention test makes the two
formulations coincide. -/
theorem c1_edge_retention (row : PathwayRow) (speciesE : String → ℚ)
    (reactant : String) (exclude : List String) (i j : Nat)
    (hlen1 : row.smiles.length = row.E.length)
    (hlen2 : row.is_stable.length = row.E.length)
    (hmem : reactant ∈ row.smiles)
    (hi : i = pyIndex reactant row.smiles)
    (hj : j < row.is_stable.length)
    (hstable : row.is_stable.getD j false = true)
    (hexcl : row.smiles.getD j "" ∉ exclude) :
    (i < j →
      ((forwardEdge speciesE reactant exclude row i j).isSome = true ↔
        ∃ m, listMaxO (slice row.E (i + 1) j) = some m ∧
          row.E.getD i 0 < m ∧ row.E.getD j 0 < m)) ∧
    (j < i →
      ((backwardEdge speciesE reactant exclude row i j).isSome = true ↔
        ∃ m, listMaxO (slice row.E (j + 1) i) = some m ∧
          row.E.getD i 0 < m ∧ row.E.getD j 0 < m)) := by
  have hjE : j < row.E.length := hlen2 ▸ hj
  have hiE : i < row.E.length := by
    rw [← hlen1, hi]
    exact pyIndex_lt _ _ hmem
  constructor
  · intro hij
    rw [forwardEdge, if_pos ⟨hstable, hexcl⟩]
    have hkey := slice_argmax_gt_iff row.E i j (row.E.getD j 0) hij (le_of_lt hjE)
    dsimp only
    split
    · rename_i hc
      simp only [Option.isSome_none, Bool.false_eq_true, false_iff]
      intro hex
      have := hkey.2 hex
      rcases hc with hc | hc
      · exact absurd this.1 (not_lt.2 hc)
      · exact absurd this.2 (not_lt.2 hc)
    · rename_i hc
      push_neg at hc
      simp only [Option.isSome_some, true_iff]
      exact hkey.1 ⟨hc.1, hc.2⟩
  · intro hji
    rw [backwardEdge, if_pos ⟨hstable, hexcl⟩]
    have hkey := slice_argmax_gt_iff row.E j i (row.E.getD i 0) hji (le_of_lt hiE)
    dsimp only
    split
    · rename_i hc
      simp only [Option.isSome_none, Bool.false_eq_true, false_iff]
      intro hex
      rcases hex with ⟨m, hmx, h1, h2⟩
      have := hkey.2 ⟨m, hmx, h2, h1⟩
      rcases hc with hc | hc
      · exact absurd this.2 (not_lt.2 hc)
      · exact absurd this.1 (not_lt.2 hc)
    · rename_i hc
      push_neg at hc
      simp only [Option.isSome_some, true_iff]
      rcases hkey.1 ⟨hc.2, hc.1⟩ with ⟨m, hmx, h1, h2⟩
      exact ⟨m, hmx, h2, h1⟩

/-- Witness for C1: in the pathway `A → (transition) → B` with energies
`[0, 5, 1]`, the forward candidate from the reactant occurrence at
index 0 to the stable occurrence at index 2 is retained, and the
interior maximum `5` indeed exceeds both endpoints. -/
theorem c1_edge_retention_witness :
    (0 < 2 →
      ((forwardEdge (fun _ => (0 : ℚ)) "A" []
          ⟨["A", "T", "B"], [0, 5, 1], [true, false, true], [0, 1, 2], "f", 0⟩
          0 2).isSome = true ↔
        ∃ m, listMaxO (slice [0, 5, 1] (0 + 1) 2) = some m ∧
          ([(0 : ℚ), 5, 1]).getD 0 0 < m ∧ ([(0 : ℚ), 5, 1]).getD 2 0 < m)) ∧
    (2 < 0 →
      ((backwardEdge (fun _ => (0 : ℚ)) "A" []
          ⟨["A", "T", "B"], [0, 5, 1], [true, false, true], [0, 1, 2], "f", 0⟩
          0 2).isSome = true ↔
        ∃ m, listMaxO (slice [0, 5, 1] (2 + 1) 0) = some m ∧
          ([(0 : ℚ), 5, 1]).getD 0 0 < m ∧ ([(0 : ℚ), 5, 1]).getD 2 0 < m)) :=
  c1_edge_retention
    ⟨["A", "T", "B"], [0, 5, 1], [true, false, true], [0, 1, 2], "f", 0⟩
    (fun _ => (0 : ℚ)) "A" [] 0 2 (by decide) (by decide) (by decide) (by decide)
    (by decide) (by decide) (by decide)

/-! ### SpeciesCatalog theorems -/

theorem processPoint_no_stable (sp : List (String × SpeciesEntry))
    (row : PathwayRow) (k : Nat) (h : ∀ b ∈ row.is_stable, b = false) :
    processPoint sp row k = sp := by
  unfold processPoint
  rw [if_neg]
  by_cases hk : k < row.is_stable.length
  · rw [List.getD_eq_getElem _ _ hk]
    have := h _ (List.getElem_mem hk)
    simp [this]
  · rw [List.getD_eq_default _ _ (not_lt.1 hk)]
    simp

theorem processRow_no_stable (sp : List (String × SpeciesEntry))
    (row : PathwayRow) (h : ∀ b ∈ row.is_stable, b = false) :
    processRow sp row = sp := by
  unfold processRow
  generalize List.range row.is_stable.length = l
  induction l generalizing sp with
  | nil => rfl
  | cons k t ih =>
    rw [List.foldl_cons, processPoint_no_stable sp row k h]
    exact ih sp

theorem speciesDict_no_stable (pathways : List PathwayRow)
    (h : ∀ row ∈ pathways, ∀ b ∈ row.is_stable, b = false) :
    speciesDict pathways = [] := by
  unfold speciesDict
  have : ∀ (l : List PathwayRow) (sp : List (String × SpeciesEntry)),
      (∀ row ∈ l, ∀ b ∈ row.is_stable, b = false) → l.foldl processRow sp = sp := by
    intro l
    induction l with
    | nil => intro sp _; rfl
    | cons r t ih =>
      intro sp hl
      rw [List.foldl_cons, processRow_no_stable sp r (hl r (List.mem_cons_self r t))]
      exact ih sp fun row hrow => hl row (List.mem_cons_of_mem r hrow)
  exact this pathways [] h

/-- C2, amended.  If zero stable species were collected across the whole
batch, `get_species_table` prints the report and raises
`SystemExit(0)` — aborting the batch, but with exit status `0`, not a
non-zero outcome — independent of how many pathways were parsed. -/
theorem c2_empty_catalog (pathways : List PathwayRow)
    (h : ∀ row ∈ pathways, ∀ b ∈ row.is_stable, b = false) :
    get_species_table pathways = Except.error 0 := by
  unfold get_species_table
  rw [speciesDict_no_stable pathways h]
  rfl

/-- Witness for the amended C2 at a concrete one-pathway batch with no
stable point. -/
theorem c2_empty_catalog_witness :
    get_species_table [⟨["A"], [0], [false], [0], "f", 0⟩] = Except.error 0 :=
  c2_empty_catalog [⟨["A"], [0], [false], [0], "f", 0⟩] (by decide)

/-- Counterexample to C2 as stated: on a batch whose only pathway has no
stable point the catalog build aborts via `SystemExit(0)`, i.e. with
exit status `0` — there is no non-zero outcome. -/
theorem c2_counterexample :
    get_species_table [⟨["A"], [0], [false], [0], "f", 0⟩] = Except.error 0 ∧
    ¬∃ c : Nat, c ≠ 0 ∧
      get_species_table [⟨["A"], [0], [false], [0], "f", 0⟩] = Except.error c := by
  have h1 : get_species_table [⟨["A"], [0], [false], [0], "f", 0⟩] =
      Except.error 0 := by rfl
  refine ⟨h1, ?_⟩
  rintro ⟨c, hc, hcc⟩
  rw [h1] at hcc
  exact hc (Except.error.inj hcc).symm

/-- C7.  Two pathways each proposing one stable point with the same
canonical identifier: in both processing orders `get_species_table`
retains exactly the lower-energy proposal's entry, and on an energy tie
the first-seen entry wins. -/
theorem c7_lower_energy_wins (s f1 f2 : String) (E1 E2 : ℚ) (p1 p2 : Nat)
    (m1 m2 : Int) :
    get_species_table
        [⟨[s], [E1], [true], [p1], f1, m1⟩, ⟨[s], [E2], [true], [p2], f2, m2⟩] =
      Except.ok [if E2 < E1 then entryOf ⟨[s], [E2], [true], [p2], f2, m2⟩ 0
                 else entryOf ⟨[s], [E1], [true], [p1], f1, m1⟩ 0] ∧
    get_species_table
        [⟨[s], [E2], [true], [p2], f2, m2⟩, ⟨[s], [E1], [true], [p1], f1, m1⟩] =
      Except.ok [if E1 < E2 then entryOf ⟨[s], [E1], [true], [p1], f1, m1⟩ 0
                 else entryOf ⟨[s], [E2], [true], [p2], f2, m2⟩ 0] := by
  constructor
  · by_cases h : E2 < E1 <;>
      simp [get_species_table, speciesDict, processRow, processPoint, entryOf,
        dictSet, List.lookup, List.range_succ, List.mergeSort, h]
  · by_cases h : E1 < E2 <;>
      simp [get_species_table, speciesDict, processRow, processPoint, entryOf,
        dictSet, List.lookup, List.range_succ, List.mergeSort, h]

/-! ### TrajectorySegmenter lemmas -/

theorem regionsGo_spec : ∀ (rest : List String) (last : String) (si rstart : Nat),
    rstart < si →
    regionsGo rest last si rstart ≠ [] ∧
    (∀ p ∈ regionsGo rest last si rstart, p.1 < p.2 ∧ p.2 ≤ si + rest.length) ∧
    List.Pairwise (fun p q : Nat × Nat => p.2 ≤ q.1) (regionsGo rest last si rstart) ∧
    (∀ p ∈ regionsGo rest last si rstart, rstart ≤ p.1) ∧
    (∀ k, rstart ≤ k → k < si + rest.length →
      ∃ p ∈ regionsGo rest last si rstart, p.1 ≤ k ∧ k < p.2)
  | [], last, si, rstart, h => by
    refine ⟨by simp [regionsGo], ?_, ?_, ?_, ?_⟩
    · intro p hp
      rcases List.mem_singleton.1 hp with rfl
      exact ⟨h, by simp⟩
    · simp [regionsGo]
    · intro p hp
      rcases List.mem_singleton.1 hp with rfl
      exact le_refl rstart
    · intro k hk1 hk2
      exact ⟨(rstart, si), List.mem_singleton.2 rfl, hk1, by simpa using hk2⟩
  | s :: xs, last, si, rstart, h => by
    simp only [regionsGo]
    split
    · have ih := regionsGo_spec xs last (si + 1) rstart (Nat.lt_succ_of_lt h)
      have harith : si + 1 + xs.length = si + (s :: xs).length := by
        simp; omega
      refine ⟨ih.1, ?_, ih.2.2.1, ih.2.2.2.1, ?_⟩
      · intro p hp
        have := ih.2.1 p hp
        omega
      · intro k hk1 hk2
        exact ih.2.2.2.2 k hk1 (by omega)
    · have ih := regionsGo_spec xs s (si + 1) si (Nat.lt_succ_self si)
      refine ⟨by simp, ?_, ?_, ?_, ?_⟩
      · intro p hp
        rcases List.mem_cons.1 hp with rfl | hp'
        · exact ⟨h, by omega⟩
        · have := ih.2.1 p hp'
          constructor
          · exact this.1
          · simp
            omega
      · refine List.pairwise_cons.2 ⟨?_, ih.2.2.1⟩
        intro q hq
        exact ih.2.2.2.1 q hq
      · intro p hp
        rcases List.mem_cons.1 hp with rfl | hp'
        · exact le_refl rstart
        · exact le_trans (le_of_lt h) (ih.2.2.2.1 p hp')
      · intro k hk1 hk2
        by_cases hksi : k < si
        · exact ⟨(rstart, si), List.mem_cons_self _ _, hk1, hksi⟩
        · have hk3 : si ≤ k := not_lt.1 hksi
          have hk4 : k < si + 1 + xs.length := by
            simp at hk2
            omega
          rcases ih.2.2.2.2 k hk3 hk4 with ⟨p, hp, hpk⟩
          exact ⟨p, List.mem_cons_of_mem _ hp, hpk⟩

theorem regionsOf_spec (s : String) (rest : List String) :
    regionsOf (s :: rest) ≠ [] ∧
    (∀ p ∈ regionsOf (s :: rest), p.1 < p.2 ∧ p.2 ≤ (s :: rest).length) ∧
    List.Pairwise (fun p q : Nat × Nat => p.2 ≤ q.1) (regionsOf (s :: rest)) ∧
    (∀ k, k < (s :: rest).length →
      ∃ p ∈ regionsOf (s :: rest), p.1 ≤ k ∧ k < p.2) := by
  have hunf : regionsOf (s :: rest) = regionsGo rest s 1 0 := by
    simp [regionsOf, regionsGo]
  have spec := regionsGo_spec rest s 1 0 Nat.zero_lt_one
  have harith : 1 + rest.length = (s :: rest).length := by simp; omega
  rw [hunf]
  exact ⟨spec.1,
    fun p hp => ⟨(spec.2.1 p hp).1, harith ▸ (spec.2.1 p hp).2⟩,
    spec.2.2.1,
    fun k hk => spec.2.2.2.2 k (Nat.zero_le k) (harith ▸ hk)⟩

theorem iminStable_bounds (smiles : List String) (E : List ℚ) (p : Nat × Nat)
    (v : Nat) (hp : p.1 < p.2) (hb : p.2 ≤ E.length)
    (hv : iminStable smiles E p = some v) : p.1 ≤ v ∧ v < p.2 := by
  unfold iminStable at hv
  dsimp only at hv
  split at hv
  · exact absurd hv (by simp)
  · have hv' : npArgmin (slice E p.1 p.2) + p.1 = v := by
      injection hv
    have hlt : npArgmin (slice E p.1 p.2) < (slice E p.1 p.2).length :=
      npArgmin_lt _ (slice_ne_nil E p.1 p.2 hp hb)
    rw [slice_length E p.1 p.2 hb] at hlt
    omega

theorem iminsOf_sorted (smiles : List String) (E : List ℚ)
    (hne : smiles ≠ []) (hlen : smiles.length = E.length) :
    List.Pairwise (· < ·) (iminsOf smiles E) ∧
    ∀ v ∈ iminsOf smiles E, v < E.length := by
  rcases smiles with _ | ⟨s, rest⟩
  · exact absurd rfl hne
  · have spec := regionsOf_spec s rest
    constructor
    · rw [iminsOf, List.pairwise_filterMap]
      refine List.Pairwise.imp_of_mem ?_ spec.2.2.1
      intro p q hp hq hpq v hv w hw
      have hbp := spec.2.1 p hp
      have hbq := spec.2.1 q hq
      have h1 := iminStable_bounds (s :: rest) E p v hbp.1 (hlen ▸ hbp.2) hv
      have h2 := iminStable_bounds (s :: rest) E q w hbq.1 (hlen ▸ hbq.2) hw
      omega
    · intro v hv
      rcases List.mem_filterMap.1 hv with ⟨p, hp, hpv⟩
      have hbp := spec.2.1 p hp
      have h1 := iminStable_bounds (s :: rest) E p v hbp.1 (hlen ▸ hbp.2) hpv
      omega

theorem iminsOf_ne_nil (smiles : List String) (E : List ℚ)
    (hne : smiles ≠ []) (hlen : smiles.length = E.length) :
    iminsOf smiles E ≠ [] := by
  rcases smiles with _ | ⟨s, rest⟩
  · exact absurd rfl hne
  · have hEne : E ≠ [] := by
      intro hE
      rw [hE] at hlen
      simp at hlen
    have spec := regionsOf_spec s rest
    -- the first global argmin and its region
    set g := npArgmin E with hg
    have hglt : g < E.length := npArgmin_lt E hEne
    have hgmin := getD_npArgmin_le E
    rcases spec.2.2.2 g (hlen ▸ hglt) with ⟨p, hp, hpg1, hpg2⟩
    have hbp := spec.2.1 p hp
    have hbE : p.2 ≤ E.length := hlen ▸ hbp.2
    -- the region minimum has the globally minimal energy
    set w := npArgmin (slice E p.1 p.2) with hw
    have hwlt : w < (slice E p.1 p.2).length :=
      npArgmin_lt _ (slice_ne_nil E p.1 p.2 hbp.1 hbE)
    rw [slice_length E p.1 p.2 hbE] at hwlt
    have hval : E.getD (w + p.1) 0 = (slice E p.1 p.2).getD w 0 := by
      rw [Nat.add_comm]
      exact (slice_getD E p.1 p.2 w hwlt hbE).symm
    have hvle : (slice E p.1 p.2).getD w 0 ≤ E.getD g 0 := by
      have hgmem : E.getD g 0 ∈ slice E p.1 p.2 := by
        have : E.getD (p.1 + (g - p.1)) 0 ∈ slice E p.1 p.2 :=
          getD_mem_slice E p.1 p.2 (g - p.1) (by omega) hbE
        rwa [show p.1 + (g - p.1) = g by omega] at this
      exact getD_npArgmin_le _ _ hgmem
    have hglobal : ∀ k, k < E.length → E.getD g 0 ≤ E.getD k 0 := by
      intro k hk
      apply hgmin
      rw [List.getD_eq_getElem _ _ hk]
      exact List.getElem_mem _
    have hmin : ∀ k, k < E.length → E.getD (w + p.1) 0 ≤ E.getD k 0 := by
      intro k hk
      rw [hval]
      exact le_trans hvle (hglobal k hk)
    -- the stability test at this region therefore accepts
    have haccept : iminStable (s :: rest) E p = some (w + p.1) := by
      unfold iminStable
      rw [if_neg]
      rintro (⟨h1, h2⟩ | ⟨h1, h2⟩)
      · have hlt1 : w + p.1 + 1 < E.length := by
          rw [← hlen]
          omega
        exact absurd h2 (not_lt.2 (hmin (w + p.1 + 1) hlt1))
      · have hlt2 : w + p.1 - 1 < E.length := by omega
        exact absurd h2 (not_lt.2 (hmin (w + p.1 - 1) hlt2))
    intro hnil
    rw [iminsOf, List.filterMap_eq_nil_iff] at hnil
    exact by simpa [haccept] using hnil p hp

/-- C5, amended.  The degenerate case the spec describes cannot occur:
every nonempty trajectory yields at least one accepted stable minimum
(the region containing a global energy minimum always passes the
local-minimum test), so segmentation never reaches the zero-minima
branch.  Had it been reached, `ipots = [imins[0]]` (line 62) would have
raised `IndexError` rather than excluding the pathway quietly. -/
theorem c5_no_degenerate (smiles : List String) (E : List ℚ)
    (hne : smiles ≠ []) (hlen : smiles.length = E.length) :
    iminsOf smiles E ≠ [] ∧ postprocessCore smiles E ≠ none := by
  refine ⟨iminsOf_ne_nil smiles E hne hlen, ?_⟩
  rcases smiles with _ | ⟨s, rest⟩
  · exact absurd rfl hne
  · rcases him : iminsOf (s :: rest) E with _ | ⟨i0, irest⟩
    · exact absurd him (iminsOf_ne_nil (s :: rest) E hne hlen)
    · simp [postprocessCore, him]

/-- Witness for the amended C5 at a concrete nonempty trajectory. -/
theorem c5_no_degenerate_witness :
    iminsOf ["A", "A", "A"] [1, 0, 1] ≠ [] ∧
    postprocessCore ["A", "A", "A"] [1, 0, 1] ≠ none :=
  c5_no_degenerate ["A", "A", "A"] [1, 0, 1] (by decide) (by decide)

/-- Counterexample to C5 as stated: the only trajectory yielding zero
accepted stable minima is the empty one, and there
`postprocess_reaction` raises (`IndexError` at `smiles[0]`, modelled by
`none`) instead of excluding the pathway without an exception. -/
theorem c5_counterexample :
    iminsOf [] [] = [] ∧ postprocessCore [] [] = none ∧
    postprocess_reaction (fun _ => ("", "", 0)) "" [] [] [] = none :=
  ⟨rfl, rfl, rfl⟩

theorem ipotsGo_chain (E : List ℚ) : ∀ (rest : List Nat) (prev : Nat),
    List.Chain (· < ·) prev rest → (∀ m ∈ rest, m < E.length) →
    List.Chain (· < ·) prev ((ipotsGo E prev rest).map Prod.fst) ∧
    (∀ v ∈ (ipotsGo E prev rest).map Prod.fst, v < E.length)
  | [], prev, _, _ => by
    simp [ipotsGo]
  | m :: t, prev, hch, hb => by
    rcases List.chain_cons.1 hch with ⟨hpm, hct⟩
    have hmlen : m < E.length := hb m (List.mem_cons_self m t)
    have hslen : (slice E prev m).length = m - prev :=
      slice_length E prev m (le_of_lt hmlen)
    have haxlt : npArgmax (slice E prev m) < m - prev := by
      rw [← hslen]
      exact npArgmax_lt _ (slice_ne_nil E prev m hpm (le_of_lt hmlen))
    have ih := ipotsGo_chain E t m hct fun v hv => hb v (List.mem_cons_of_mem m hv)
    simp only [ipotsGo]
    split
    · rename_i hcond
      constructor
      · simp only [List.map_append, List.map_cons, List.map_nil]
        refine List.chain_cons.2 ⟨?_, List.chain_cons.2 ⟨by omega, ih.1⟩⟩
        rcases hcond with ⟨_, hne⟩
        omega
      · intro v hv
        simp only [List.map_append, List.map_cons, List.map_nil] at hv
        rcases List.mem_cons.1 hv with rfl | hv'
        · omega
        · rcases List.mem_cons.1 hv' with rfl | hv''
          · exact hmlen
          · exact ih.2 v hv''
    · constructor
      · simp only [List.nil_append, List.map_cons]
        exact List.chain_cons.2 ⟨hpm, ih.1⟩
      · intro v hv
        simp only [List.nil_append, List.map_cons] at hv
        rcases List.mem_cons.1 hv with rfl | hv'
        · exact hmlen
        · exact ih.2 v hv'

theorem ipotsGo_flags (E : List ℚ) : ∀ (rest : List Nat) (prev : Nat),
    List.Chain' (fun a b => a = true ∨ b = true)
      (true :: (ipotsGo E prev rest).map Prod.snd) ∧
    (true :: (ipotsGo E prev rest).map Prod.snd).getLast? = some true
  | [], prev => by simp [ipotsGo]
  | m :: t, prev => by
    have ih := ipotsGo_flags E t m
    simp only [ipotsGo]
    split
    · simp only [List.map_append, List.map_cons, List.map_nil, List.cons_append,
        List.nil_append]
      constructor
      · refine List.chain'_cons.2 ⟨Or.inl rfl, ?_⟩
        exact List.chain'_cons.2 ⟨Or.inr rfl, ih.1⟩
      · rw [List.getLast?_cons_cons, List.getLast?_cons_cons]
        exact ih.2
    · simp only [List.nil_append, List.map_cons]
      constructor
      · exact List.chain'_cons.2 ⟨Or.inl rfl, ih.1⟩
      · rw [List.getLast?_cons_cons]
        exact ih.2

/-- C3, amended.  For every nonempty trajectory, segmentation succeeds
and the emitted stretch-point indices are strictly increasing and lie
within the trajectory bounds.  (The claim's further assertion that the
first and last trajectory indices are always present is false; see the
counterexample.) -/
theorem c3_stretch_points (smiles : List String) (E : List ℚ)
    (hne : smiles ≠ []) (hlen : smiles.length = E.length) :
    ∃ ipots flags, postprocessCore smiles E = some (ipots, flags) ∧
      List.Pairwise (· < ·) ipots ∧ ∀ v ∈ ipots, v < E.length := by
  rcases hsm : smiles with _ | ⟨s, rest⟩
  · exact absurd rfl (hsm ▸ hne)
  · subst hsm
    rcases him : iminsOf (s :: rest) E with _ | ⟨i0, irest⟩
    · exact absurd him (iminsOf_ne_nil (s :: rest) E hne hlen)
    · have hsorted := iminsOf_sorted (s :: rest) E hne hlen
      rw [him] at hsorted
      have hch : List.Chain (· < ·) i0 irest := hsorted.1.chain'
      have hb : ∀ m ∈ irest, m < E.length := fun m hm =>
        hsorted.2 m (List.mem_cons_of_mem i0 hm)
      have hi0 : i0 < E.length := hsorted.2 i0 (List.mem_cons_self i0 irest)
      have hgo := ipotsGo_chain E irest i0 hch hb
      refine ⟨((i0, true) :: ipotsGo E i0 irest).map Prod.fst,
        ((i0, true) :: ipotsGo E i0 irest).map Prod.snd, ?_, ?_, ?_⟩
      · simp [postprocessCore, him]
      · simp only [List.map_cons]
        rw [← List.chain'_iff_pairwise]
        exact hgo.1
      · intro v hv
        simp only [List.map_cons] at hv
        rcases List.mem_cons.1 hv with rfl | hv'
        · exact hi0
        · exact hgo.2 v hv'

/-- Witness for the amended C3 at a concrete nonempty trajectory. -/
theorem c3_stretch_points_witness :
    ∃ ipots flags,
      postprocessCore ["A", "A", "A", "B", "B", "C", "C"]
          [0, 10, 5, 20, 4, 30, 2] = some (ipots, flags) ∧
      List.Pairwise (· < ·) ipots ∧
      ∀ v ∈ ipots, v < ([0, 10, 5, 20, 4, 30, 2] : List ℚ).length :=
  c3_stretch_points ["A", "A", "A", "B", "B", "C", "C"]
    [0, 10, 5, 20, 4, 30, 2] (by decide) (by decide)

/-- Counterexample to C3 as stated: for the single-identifier trajectory
with energies `[1, 0, 1]` the stretch-point list is `[1]` — neither the
first trajectory index `0` nor the last trajectory index `2` is
present. -/
theorem c3_counterexample :
    postprocessCore ["A", "A", "A"] [1, 0, 1] = some ([1], [true]) ∧
    (0 : Nat) ∉ ([1] : List Nat) ∧ (2 : Nat) ∉ ([1] : List Nat) := by
  refine ⟨by decide, by decide, by decide⟩

/-- C10.  Whenever `postprocess_reaction` succeeds, the emitted
stability flags begin and end with a stable point, and no two
consecutive stretch points are both transitions — every transition
point is immediately preceded and followed by a stable point. -/
theorem c10_flag_shape (reopt : Nat → String × String × ℚ) (folder : String)
    (smiles smiles_iso : List String) (E : List ℚ) (rec : PathRecord)
    (h : postprocess_reaction reopt folder smiles smiles_iso E = some rec) :
    rec.is_stable.head? = some true ∧
    rec.is_stable.getLast? = some true ∧
    List.Chain' (fun a b => a = true ∨ b = true) rec.is_stable := by
  rcases hcore : postprocessCore smiles E with _ | ⟨ipots, flags⟩
  · rw [postprocess_reaction, hcore] at h
    exact absurd h (by simp)
  · rw [postprocess_reaction, hcore] at h
    have hstable : rec.is_stable = flags := by
      injection h with hrec
      exact (congrArg PathRecord.is_stable hrec).symm
    have hflags : ∃ i0 irest, flags = true :: (ipotsGo E i0 irest).map Prod.snd := by
      rcases smiles with _ | ⟨s, srest⟩
      · exact absurd hcore (by simp [postprocessCore])
      · rcases him : iminsOf (s :: srest) E with _ | ⟨i0, irest⟩
        · rw [postprocessCore, him] at hcore
          exact absurd hcore (by simp)
        · rw [postprocessCore, him] at hcore
          dsimp only at hcore
          injection hcore with hpair
          refine ⟨i0, irest, ?_⟩
          have h2 : List.map Prod.snd ((i0, true) :: ipotsGo E i0 irest) = flags :=
            congrArg Prod.snd hpair
          exact h2.symm
    rcases hflags with ⟨i0, irest, hfl⟩
    have hsh := ipotsGo_flags E irest i0
    rw [hstable, hfl]
    exact ⟨by simp, hsh.2, hsh.1⟩

/-- Witness for C10: the spec's seven-frame scenario, whose flags are
`[stable, transition, stable, transition, stable]` (energies scaled to
integers). -/
theorem c10_flag_shape_witness :
    ∃ rec, postprocess_reaction (fun _ => ("X", "X", 0)) "f"
        ["A", "A", "A", "B", "B", "C", "C"] ["A", "A", "A", "B", "B", "C", "C"]
        [0, 10, 5, 20, 4, 30, 2] = some rec ∧
      (rec.is_stable.head? = some true ∧
       rec.is_stable.getLast? = some true ∧
       List.Chain' (fun a b => a = true ∨ b = true) rec.is_stable) :=
  ⟨⟨[0, 20, 0, 30, 0], ["X", "B", "X", "C", "X"], ["X", "B", "X", "C", "X"],
      [true, false, true, false, true], [0, 3, 4, 5, 6], "f"⟩,
    by decide,
    c10_flag_shape (fun _ => ("X", "X", 0)) "f"
      ["A", "A", "A", "B", "B", "C", "C"] ["A", "A", "A", "B", "B", "C", "C"]
      [0, 10, 5, 20, 4, 30, 2] _ (by decide)⟩

/-! ### ConstraintScanDriver lemmas and theorems -/

theorem succLoop_succ (engine : Nat → StepResult) (emax : ℚ) (b : Bool)
    (i r : Nat) (acc : List (String × ℚ)) :
    succLoop engine emax b i (r + 1) acc =
      match engine i with
      | .raises => .raised i acc
      | .ok e log =>
        if e ≠ 0 then .errorBreak i acc
        else
          match log with
          | [] => .raised i acc
          | _ :: _ =>
            if lastE log > emax ∧ b = true then .thresholdBreak (acc ++ [repOf log])
            else succLoop engine emax b (i + 1) r (acc ++ [repOf log]) := rfl

theorem repOf_mem (log : List (String × ℚ)) (h : log ≠ []) : repOf log ∈ log := by
  have hk : npArgmin (log.map Prod.snd) < log.length := by
    have h1 := npArgmin_lt (log.map Prod.snd) (by simp [h])
    simpa using h1
  show (argminFrame log, npMinVal (log.map Prod.snd)) ∈ log
  unfold argminFrame npMinVal
  rw [List.getD_eq_getElem _ _ (by simpa using hk),
    List.getD_eq_getElem _ _ (by simpa using hk)]
  rw [List.getElem_map, List.getElem_map]
  simp

theorem succLoopOk_spec (err : Nat → Int) (logs : Nat → List (String × ℚ))
    (emax : ℚ) (b : Bool) : ∀ (r i : Nat) (acc : List (String × ℚ)),
    (∀ j, i ≤ j → j < i + r → err j = 0 → logs j ≠ []) →
    ∃ m, m ≤ r ∧
      (succLoop (fun j => .ok (err j) (logs j)) emax b i r acc =
         .completed (acc ++ (List.range' i m).map fun j => repOf (logs j)) ∨
       succLoop (fun j => .ok (err j) (logs j)) emax b i r acc =
         .errorBreak (i + m) (acc ++ (List.range' i m).map fun j => repOf (logs j)) ∨
       succLoop (fun j => .ok (err j) (logs j)) emax b i r acc =
         .thresholdBreak (acc ++ (List.range' i m).map fun j => repOf (logs j))) ∧
      (∀ k, k < m → err (i + k) = 0) ∧
      (∀ k, k + 1 < m → ¬(lastE (logs (i + k)) > emax ∧ b = true)) ∧
      (m < r → err (i + m) ≠ 0 ∨
        (0 < m ∧ lastE (logs (i + m - 1)) > emax ∧ b = true)) := by
  intro r
  induction r with
  | zero =>
    intro i acc _
    exact ⟨0, le_refl 0, Or.inl (by simp [succLoop]), fun k hk => absurd hk (by omega),
      fun k hk => absurd hk (by omega), fun h => absurd h (by omega)⟩
  | succ r ih =>
    intro i acc hyp
    rw [succLoop_succ]
    dsimp only
    by_cases he : err i ≠ 0
    · rw [if_pos he]
      refine ⟨0, Nat.zero_le _, Or.inr (Or.inl (by simp)),
        fun k hk => absurd hk (by omega), fun k hk => absurd hk (by omega), ?_⟩
      intro _
      exact Or.inl (by simpa using he)
    · rw [if_neg he]
      have he0 : err i = 0 := not_not.1 (by simpa using he)
      have hlogi : logs i ≠ [] := hyp i (le_refl i) (by omega) he0
      rcases hcons : logs i with _ | ⟨x, xs⟩
      · exact absurd hcons hlogi
      · dsimp only
        by_cases ht : lastE (x :: xs) > emax ∧ b = true
        · rw [if_pos ht]
          refine ⟨1, by omega, Or.inr (Or.inr (by simp [List.range'_succ, hcons])), ?_, ?_, ?_⟩
          · intro k hk
            have hk0 : k = 0 := by omega
            subst hk0
            simpa using he0
          · intro k hk
            exact absurd hk (by omega)
          · intro _
            refine Or.inr ⟨Nat.one_pos, ?_⟩
            have : i + 1 - 1 = i := by omega
            rw [this, hcons]
            exact ht
        · rw [if_neg ht]
          rcases ih (i + 1) (acc ++ [repOf (x :: xs)])
              (fun j hj1 hj2 => hyp j (by omega) (by omega)) with
            ⟨m, hm, hdisj, h1, h2, h3⟩
          have hacc : (acc ++ [repOf (x :: xs)]) ++
              ((List.range' (i + 1) m).map fun j => repOf (logs j)) =
              acc ++ ((List.range' i (m + 1)).map fun j => repOf (logs j)) := by
            rw [List.range'_succ]
            simp [hcons]
          have hidx : i + 1 + m = i + (m + 1) := by omega
          refine ⟨m + 1, by omega, ?_, ?_, ?_, ?_⟩
          · rw [← hacc, ← hidx]
            exact hdisj
          · intro k hk
            rcases Nat.eq_zero_or_pos k with rfl | hkpos
            · simpa using he0
            · rcases Nat.exists_eq_succ_of_ne_zero (Nat.pos_iff_ne_zero.1 hkpos) with ⟨k', rfl⟩
              have hik : i + (k' + 1) = i + 1 + k' := by omega
              rw [hik]
              exact h1 k' (by omega)
          · intro k hk
            rcases Nat.eq_zero_or_pos k with rfl | hkpos
            · rw [Nat.add_zero, hcons]
              exact ht
            · rcases Nat.exists_eq_succ_of_ne_zero (Nat.pos_iff_ne_zero.1 hkpos) with ⟨k', rfl⟩
              have hik : i + (k' + 1) = i + 1 + k' := by omega
              rw [hik]
              exact h2 k' (by omega)
          · intro hlt
            rcases h3 (by omega) with hcase | hcase
            · refine Or.inl ?_
              rwa [← hidx]
            · refine Or.inr ⟨by omega, ?_⟩
              have : i + (m + 1) - 1 = i + 1 + m - 1 := by omega
              rw [this]
              exact hcase.2

/-- C4, amended.  For a run of `successive_optimization` whose engine
never raises (and returns a nonempty relaxation log on success), there
is a stop index `m ≤ n` such that: the collected structures and energies
are exactly the per-step representatives of steps `0 … m-1` — each being
the lowest-energy frame of that step's own relaxation log, nothing
already collected is discarded; no step before the last collected one
tripped the stop conditions; and an early stop (`m < n`) happens exactly
for one of the two reasons: the engine reported a non-zero status at
step `m`, or the energy of the *final frame* of step `m-1`'s log (the
source's `newe[-1]`, not the representative minimum) exceeded
`parameters["emax"]` while the `barrier` flag was set. -/
theorem c4_steps_and_stop (err : Nat → Int) (logs : Nat → List (String × ℚ))
    (n : Nat) (emax : ℚ) (b : Bool)
    (hlog : ∀ j, j < n → err j = 0 → logs j ≠ []) :
    ∃ m, m ≤ n ∧
      (successive_optimization (fun j => .ok (err j) (logs j)) n emax b).raised = false ∧
      (successive_optimization (fun j => .ok (err j) (logs j)) n emax b).structures =
        ((List.range' 0 m).map fun j => argminFrame (logs j)) ∧
      (successive_optimization (fun j => .ok (err j) (logs j)) n emax b).energies =
        ((List.range' 0 m).map fun j => npMinVal ((logs j).map Prod.snd)) ∧
      (∀ k, k < m → err k = 0 ∧ repOf (logs k) ∈ logs k ∧
        ∀ q ∈ (logs k).map Prod.snd, npMinVal ((logs k).map Prod.snd) ≤ q) ∧
      (∀ k, k + 1 < m → ¬(lastE (logs k) > emax ∧ b = true)) ∧
      (m < n → err m ≠ 0 ∨ (0 < m ∧ lastE (logs (m - 1)) > emax ∧ b = true)) := by
  rcases Nat.eq_zero_or_pos n with rfl | hn
  · exact ⟨0, le_refl 0, rfl, rfl, rfl, fun k hk => absurd hk (by omega),
      fun k hk => absurd hk (by omega), fun h => absurd h (by omega)⟩
  · rcases succLoopOk_spec err logs emax b n 0 [] (fun j hj1 hj2 => hlog j (by omega)) with
      ⟨m, hm, hdisj, h1, h2, h3⟩
    have hmapfst : ∀ ml : List Nat,
        ((ml.map fun j => repOf (logs j)).map Prod.fst) =
          ml.map fun j => argminFrame (logs j) := by
      intro ml
      rw [List.map_map]
      rfl
    have hmapsnd : ∀ ml : List Nat,
        ((ml.map fun j => repOf (logs j)).map Prod.snd) =
          ml.map fun j => npMinVal ((logs j).map Prod.snd) := by
      intro ml
      rw [List.map_map]
      rfl
    have hrun : successive_optimization (fun j => .ok (err j) (logs j)) n emax b =
        ⟨true, false, (List.range' 0 m).map fun j => argminFrame (logs j),
          (List.range' 0 m).map fun j => npMinVal ((logs j).map Prod.snd),
          (successive_optimization (fun j => .ok (err j) (logs j)) n emax b).engineFailedAt,
          true⟩ := by
      unfold successive_optimization
      rw [if_neg (by omega)]
      rcases hdisj with h | h | h <;>
        · rw [h]
          dsimp only
          rw [List.nil_append] at *
          rw [hmapfst, hmapsnd]
    refine ⟨m, hm, ?_, ?_, ?_, ?_, ?_, ?_⟩
    · rw [hrun]
    · rw [hrun]
    · rw [hrun]
    · intro k hk
      have hek : err k = 0 := by
        have := h1 k hk
        simpa using this
      have hlogk : logs k ≠ [] := hlog k (by omega) hek
      exact ⟨hek, repOf_mem (logs k) hlogk,
        fun q hq => getD_npArgmin_le ((logs k).map Prod.snd) q hq⟩
    · intro k hk
      have := h2 k hk
      simpa using this
    · intro hlt
      have := h3 hlt
      simpa using this

/-- Witness for the amended C4: a one-step run with a successful engine
and log `[("a", 0)]` collects exactly that representative. -/
theorem c4_steps_and_stop_witness :
    ∃ m, m ≤ 1 ∧
      (successive_optimization (fun j => .ok ((fun _ => (0 : Int)) j)
          ((fun _ => [("a", (0 : ℚ))]) j)) 1 5 true).raised = false ∧
      (successive_optimization (fun j => .ok ((fun _ => (0 : Int)) j)
          ((fun _ => [("a", (0 : ℚ))]) j)) 1 5 true).structures =
        ((List.range' 0 m).map fun j => argminFrame ((fun _ => [("a", (0 : ℚ))]) j)) ∧
      (successive_optimization (fun j => .ok ((fun _ => (0 : Int)) j)
          ((fun _ => [("a", (0 : ℚ))]) j)) 1 5 true).energies =
        ((List.range' 0 m).map fun j =>
          npMinVal (((fun _ => [("a", (0 : ℚ))]) j).map Prod.snd)) ∧
      (∀ k, k < m → (fun _ => (0 : Int)) k = 0 ∧
        repOf ((fun _ => [("a", (0 : ℚ))]) k) ∈ (fun _ => [("a", (0 : ℚ))]) k ∧
        ∀ q ∈ (((fun _ => [("a", (0 : ℚ))]) k).map Prod.snd),
          npMinVal (((fun _ => [("a", (0 : ℚ))]) k).map Prod.snd) ≤ q) ∧
      (∀ k, k + 1 < m →
        ¬(lastE ((fun _ => [("a", (0 : ℚ))]) k) > 5 ∧ true = true)) ∧
      (m < 1 → (fun _ => (0 : Int)) m ≠ 0 ∨
        (0 < m ∧ lastE ((fun _ => [("a", (0 : ℚ))]) (m - 1)) > 5 ∧ true = true)) :=
  c4_steps_and_stop (fun _ => (0 : Int)) (fun _ => [("a", (0 : ℚ))]) 1 5 true
    (fun j _ _ => by simp)

/-- Counterexample to C4 as stated: the engine succeeds at step 0 with
log `[("a", 0), ("b", 10)]` and `emax = 5`.  The step's representative
energy is `0 ≤ emax`, and no engine failure occurred, yet the chain
stops early (one sample collected out of two constraints) because the
code tests the final log frame `newe[-1] = 10 > emax`, not the
representative energy. -/
theorem c4_counterexample :
    (successive_optimization (fun _ => .ok 0 [("a", 0), ("b", 10)]) 2 5 true).energies
        = [0] ∧
    (successive_optimization (fun _ => .ok 0 [("a", 0), ("b", 10)]) 2 5 true).raised
        = false ∧
    (successive_optimization
        (fun _ => .ok 0 [("a", 0), ("b", 10)]) 2 5 true).engineFailedAt = none ∧
    ¬(npMinVal ([("a", (0 : ℚ)), ("b", 10)].map Prod.snd) > 5) :=
  ⟨by decide, by decide, by decide, by decide⟩

/-- C8.  If the very first forward constrained relaxation reports a
non-zero engine status, the forward chain collects nothing, the
failout sentinel is recorded for step 0 (`FAILED_FORWARD`, written by
the engine collaborator), and `react_job` returns without attempting
the backward chain and without writing a stitched trajectory. -/
theorem c8_first_step_failure (fengine bengine : Nat → StepResult)
    (nf nb : Nat) (emax : ℚ) (e : Int) (log : List (String × ℚ))
    (hnf : nf ≠ 0) (hf : fengine 0 = .ok e log) (he : e ≠ 0) :
    (react_job fengine bengine nf nb emax).forwardRun.structures = [] ∧
    (react_job fengine bengine nf nb emax).forwardRun.energies = [] ∧
    (react_job fengine bengine nf nb emax).forwardRun.engineFailedAt = some 0 ∧
    (react_job fengine bengine nf nb emax).backwardAttempted = false ∧
    (react_job fengine bengine nf nb emax).backwardRun = none ∧
    (react_job fengine bengine nf nb emax).dumped = none := by
  rcases Nat.exists_eq_succ_of_ne_zero hnf with ⟨nf', rfl⟩
  have hloop : succLoop fengine emax true 0 (nf' + 1) [] = .errorBreak 0 [] := by
    rw [succLoop_succ, hf]
    dsimp only
    rw [if_pos he]
  have hfrun : successive_optimization fengine (nf' + 1) emax true =
      ⟨true, false, [], [], some 0, true⟩ := by
    unfold successive_optimization
    rw [if_neg (by omega), hloop]
    exact rfl
  unfold react_job
  rw [hfrun]
  simp

/-- Witness for C8: a first-step engine failure with status 1. -/
theorem c8_first_step_failure_witness :
    (react_job (fun _ => .ok 1 []) (fun _ => .ok 0 [("a", 0)]) 1 2 0).forwardRun.structures
        = [] ∧
    (react_job (fun _ => .ok 1 []) (fun _ => .ok 0 [("a", 0)]) 1 2 0).forwardRun.energies
        = [] ∧
    (react_job (fun _ => .ok 1 [])
        (fun _ => .ok 0 [("a", 0)]) 1 2 0).forwardRun.engineFailedAt = some 0 ∧
    (react_job (fun _ => .ok 1 []) (fun _ => .ok 0 [("a", 0)]) 1 2 0).backwardAttempted
        = false ∧
    (react_job (fun _ => .ok 1 []) (fun _ => .ok 0 [("a", 0)]) 1 2 0).backwardRun
        = none ∧
    (react_job (fun _ => .ok 1 []) (fun _ => .ok 0 [("a", 0)]) 1 2 0).dumped = none :=
  c8_first_step_failure (fun _ => .ok 1 []) (fun _ => .ok 0 [("a", 0)]) 1 2 0 1 []
    (by decide) rfl (by decide)

/-- C9, failing input.  When step 0's engine invocation succeeds with an
empty relaxation log, `np.argmin(newe)` raises `ValueError`; the
exception escapes the loop and the `os.close`/`os.remove` block is never
reached, although the three scratch files had been created — they leak.
(The same happens for any exception escaping a step, e.g. a raising
engine invocation.) -/
theorem c9_scratch_leak :
    (successive_optimization (fun _ => .ok 0 []) 1 0 true).scratchCreated = true ∧
    (successive_optimization (fun _ => .ok 0 []) 1 0 true).raised = true ∧
    (successive_optimization (fun _ => .ok 0 []) 1 0 true).cleanupRan = false ∧
    (successive_optimization (fun _ => StepResult.raises) 1 0 true).scratchCreated
        = true ∧
    (successive_optimization (fun _ => StepResult.raises) 1 0 true).cleanupRan
        = false :=
  ⟨by decide, by decide, by decide, by decide, by decide⟩

/-! ### ReactionNetworkBuilder stage-2 lemmas and theorems -/

theorem dedupFOGo_spec : ∀ (l seen : List String),
    (dedupFOGo seen l).Nodup ∧ ∀ x ∈ dedupFOGo seen l, x ∈ l ∧ x ∉ seen
  | [], seen => by simp [dedupFOGo]
  | x :: xs, seen => by
    simp only [dedupFOGo]
    split
    · have ih := dedupFOGo_spec xs seen
      exact ⟨ih.1, fun y hy => ⟨List.mem_cons_of_mem x (ih.2 y hy).1, (ih.2 y hy).2⟩⟩
    · rename_i hxseen
      have ih := dedupFOGo_spec xs (x :: seen)
      constructor
      · refine List.nodup_cons.2 ⟨?_, ih.1⟩
        intro hx
        exact absurd (List.mem_cons_self x seen) (ih.2 x hx).2
      · intro y hy
        rcases List.mem_cons.1 hy with rfl | hy'
        · exact ⟨List.mem_cons_self y xs, hxseen⟩
        · have := ih.2 y hy'
          exact ⟨List.mem_cons_of_mem x this.1,
            fun hys => this.2 (List.mem_cons_of_mem x hys)⟩

theorem dedupFO_nodup (l : List String) : (dedupFO l).Nodup :=
  (dedupFOGo_spec l []).1

theorem mem_of_mem_dedupFO (l : List String) (x : String) (h : x ∈ dedupFO l) :
    x ∈ l :=
  ((dedupFOGo_spec l []).2 x h).1

theorem forwardEdge_to_not_excluded (speciesE : String → ℚ) (reactant : String)
    (exclude : List String) (row : PathwayRow) (i j : Nat) (e : Edge)
    (h : forwardEdge speciesE reactant exclude row i j = some e) :
    e.to_ ∉ exclude := by
  unfold forwardEdge at h
  split at h
  · rename_i hcond
    dsimp only at h
    split at h
    · exact absurd h (by simp)
    · have : e.to_ = row.smiles.getD j "" := by
        injection h with h
        rw [← h]
      rw [this]
      exact hcond.2
  · exact absurd h (by simp)

theorem backwardEdge_to_not_excluded (speciesE : String → ℚ) (reactant : String)
    (exclude : List String) (row : PathwayRow) (i j : Nat) (e : Edge)
    (h : backwardEdge speciesE reactant exclude row i j = some e) :
    e.to_ ∉ exclude := by
  unfold backwardEdge at h
  split at h
  · rename_i hcond
    dsimp only at h
    split at h
    · exact absurd h (by simp)
    · have : e.to_ = row.smiles.getD j "" := by
        injection h with h
        rw [← h]
      rw [this]
      exact hcond.2
  · exact absurd h (by simp)

theorem layer_to_not_excluded (pathways : List PathwayRow) (reactant : String)
    (speciesE : String → ℚ) (exclude : List String) :
    ∀ e ∈ reaction_network_layer pathways reactant speciesE exclude,
      e.to_ ∉ exclude := by
  unfold reaction_network_layer
  induction pathways with
  | nil => simp
  | cons row rows ih =>
    intro e he
    rw [List.foldr_cons] at he
    rcases List.mem_append.1 he with hrow | hrest
    · unfold layerRow at hrow
      split at hrow
      · rcases List.mem_append.1 hrow with hfd | hbk
        · rcases List.mem_filterMap.1 hfd with ⟨j, _, hj⟩
          exact forwardEdge_to_not_excluded speciesE reactant exclude row _ j e hj
        · rcases List.mem_filterMap.1 hbk with ⟨j, _, hj⟩
          exact backwardEdge_to_not_excluded speciesE reactant exclude row _ j e hj
      · exact absurd hrow (List.not_mem_nil e)
    · exact ih e hrest

theorem processProducts_spec (conv : ℚ) (rl : Bool) (current : String) (E0 : ℚ)
    (layer : List Edge) (done : List String) (hcd : current ∉ done) :
    ∀ (products todo : List String) (iden : Nat) (acc : List ReactionRow),
    products.Nodup →
    (∀ p ∈ products, p ∉ done ∧ p ≠ current) →
    (∀ x ∈ todo, x ∉ done ∧ x ≠ current) →
    todo.Nodup →
    iden = acc.length + 1 →
    acc.map (fun r => r.reaction_id) = List.range' 1 acc.length →
    List.Pairwise (fun r s : ReactionRow =>
      ¬(r.from_ = s.from_ ∧ r.to_ = s.to_)) acc →
    (∀ r ∈ acc, r.from_ ∈ done ∨ (r.from_ = current ∧ r.to_ ∉ products)) →
    (processProducts conv rl current E0 layer products todo done iden acc).2.1 =
        (processProducts conv rl current E0 layer products todo done iden acc).2.2.length
          + 1 ∧
    (processProducts conv rl current E0 layer products todo done iden acc).2.2.map
        (fun r => r.reaction_id) =
      List.range' 1
        (processProducts conv rl current E0 layer products todo done iden acc).2.2.length ∧
    List.Pairwise (fun r s : ReactionRow => ¬(r.from_ = s.from_ ∧ r.to_ = s.to_))
      (processProducts conv rl current E0 layer products todo done iden acc).2.2 ∧
    (∀ r ∈ (processProducts conv rl current E0 layer products todo done iden acc).2.2,
      r.from_ ∈ done ∨ r.from_ = current) ∧
    (∀ x ∈ (processProducts conv rl current E0 layer products todo done iden acc).1,
      x ∉ done ∧ x ≠ current) ∧
    (processProducts conv rl current E0 layer products todo done iden acc).1.Nodup
  | [], todo, iden, acc => by
    intro _ _ htodo htd hiden hids hpw hfrom
    simp only [processProducts]
    refine ⟨hiden, hids, hpw, ?_, htodo, htd⟩
    intro r hr
    rcases hfrom r hr with h | h
    · exact Or.inl h
    · exact Or.inr h.1
  | p :: ps, todo, iden, acc => by
    intro hnd hprod htodo htd hiden hids hpw hfrom
    simp only [processProducts]
    rcases hfil : layer.filter (fun e => e.to_ = p) with _ | ⟨e, es⟩
    · rw [hfil]
      exact processProducts_spec conv rl current E0 layer done hcd ps todo iden acc
        (List.nodup_cons.1 hnd).2
        (fun q hq => hprod q (List.mem_cons_of_mem p hq))
        htodo htd hiden hids hpw
        (fun r hr => by
          rcases hfrom r hr with h | h
          · exact Or.inl h
          · exact Or.inr ⟨h.1, fun hto => h.2 (List.mem_cons_of_mem p hto)⟩)
    · rw [hfil]
      dsimp only
      have hp := hprod p (List.mem_cons_self p ps)
      have hpps : p ∉ ps := (List.nodup_cons.1 hnd).1
      apply processProducts_spec conv rl current E0 layer done hcd ps _ (iden + 1) _
        (List.nodup_cons.1 hnd).2
        (fun q hq => hprod q (List.mem_cons_of_mem p hq))
      -- remaining hypotheses of the recursive call
      · intro x hx
        by_cases hcnd : p ∉ done ∧ p ∉ todo
        · rw [if_pos hcnd] at hx
          rcases List.mem_append.1 hx with hx' | hx'
          · exact htodo x hx'
          · rcases List.mem_singleton.1 hx' with rfl
            exact ⟨hp.1, hp.2⟩
        · rw [if_neg hcnd] at hx
          exact htodo x hx
      · by_cases hcnd : p ∉ done ∧ p ∉ todo
        · rw [if_pos hcnd]
          simp [List.nodup_append, htd, hcnd.2]
        · rw [if_neg hcnd]
          exact htd
      · simp [hiden]
      · simp only [List.map_append, List.length_append, List.map_cons, List.map_nil,
          List.length_cons, List.length_nil]
        rw [hids, hiden]
        have h := @List.range'_concat 1 1 acc.length
        rw [show acc.length + 0 + 1 = acc.length + 1 by omega]
        rw [show (1 : Nat) + 1 * acc.length = acc.length + 1 by omega] at h
        exact h.symm
      · rw [List.pairwise_append]
        refine ⟨hpw, List.pairwise_singleton _ _, ?_⟩
        intro r hr s hs
        rcases List.mem_singleton.1 hs with rfl
        rintro ⟨hfr, hto⟩
        have hfr' : r.from_ = current := hfr
        have hto' : r.to_ = p := hto
        rcases hfrom r hr with h | h
        · exact hcd (hfr' ▸ h)
        · exact h.2 (by rw [hto']; exact List.mem_cons_self p ps)
      · intro r hr
        rcases List.mem_append.1 hr with hr' | hr'
        · rcases hfrom r hr' with h | h
          · exact Or.inl h
          · exact Or.inr ⟨h.1, fun hto => h.2 (List.mem_cons_of_mem p hto)⟩
        · rcases List.mem_singleton.1 hr' with rfl
          exact Or.inr ⟨rfl, hpps⟩

theorem analyseGo_spec (orderProducts : List String → List String) (conv : ℚ)
    (rl : Bool) (speciesE : String → ℚ) (pathways : List PathwayRow)
    (hord : ∀ l, (orderProducts l).Perm l) :
    ∀ (fuel : Nat) (todo done : List String) (iden : Nat) (acc : List ReactionRow),
    todo.Nodup →
    (∀ x ∈ todo, x ∉ done) →
    iden = acc.length + 1 →
    acc.map (fun r => r.reaction_id) = List.range' 1 acc.length →
    List.Pairwise (fun r s : ReactionRow =>
      ¬(r.from_ = s.from_ ∧ r.to_ = s.to_)) acc →
    (∀ r ∈ acc, r.from_ ∈ done) →
    ((analyseGo orderProducts conv rl speciesE pathways fuel todo done iden acc).map
        (fun r => r.reaction_id) =
      List.range' 1
        (analyseGo orderProducts conv rl speciesE pathways fuel todo done iden acc).length ∧
     List.Pairwise (fun r s : ReactionRow => ¬(r.from_ = s.from_ ∧ r.to_ = s.to_))
       (analyseGo orderProducts conv rl speciesE pathways fuel todo done iden acc))
  | 0, todo, done, iden, acc => by
    intro _ _ _ hids hpw _
    exact ⟨hids, hpw⟩
  | fuel + 1, [], done, iden, acc => by
    intro _ _ _ hids hpw _
    exact ⟨hids, hpw⟩
  | fuel + 1, current :: rest, done, iden, acc => by
    intro htd htodo hiden hids hpw hfrom
    simp only [analyseGo]
    have hcur : current ∉ done := htodo current (List.mem_cons_self current rest)
    have hrest_nd : rest.Nodup := (List.nodup_cons.1 htd).2
    have hcur_rest : current ∉ rest := (List.nodup_cons.1 htd).1
    set layer := reaction_network_layer pathways current speciesE (done ++ [current])
      with hlayer
    have hexc := layer_to_not_excluded pathways current speciesE (done ++ [current])
    have hprodfacts : ∀ p ∈ orderProducts (dedupFO (layer.map fun e => e.to_)),
        p ∉ done ∧ p ≠ current := by
      intro p hp
      have hp1 : p ∈ dedupFO (layer.map fun e => e.to_) :=
        ((hord _).mem_iff).1 hp
      have hp2 : p ∈ layer.map fun e => e.to_ := mem_of_mem_dedupFO _ p hp1
      rcases List.mem_map.1 hp2 with ⟨e, he, rfl⟩
      have := hexc e he
      rw [List.mem_append] at this
      push_neg at this
      exact ⟨this.1, by
        intro hcontra
        exact this.2 (by rw [hcontra]; exact List.mem_singleton.2 rfl)⟩
    have hprodnd : (orderProducts (dedupFO (layer.map fun e => e.to_))).Nodup :=
      ((hord _).symm).nodup (dedupFO_nodup _)
    split
    · -- no products: mark current done and continue
      exact analyseGo_spec orderProducts conv rl speciesE pathways hord fuel rest
        (done ++ [current]) iden acc hrest_nd
        (fun x hx => by
          rw [List.mem_append]
          push_neg
          refine ⟨(htodo x (List.mem_cons_of_mem current hx)), ?_⟩
          intro hc
          rcases List.mem_singleton.1 hc with rfl
          exact hcur_rest hx)
        hiden hids hpw
        (fun r hr => List.mem_append.2 (Or.inl (hfrom r hr)))
    · -- process the products, then continue with the updated state
      rcases hpp : processProducts conv rl current (speciesE current) layer
          (orderProducts (dedupFO (layer.map fun e => e.to_))) rest done iden acc with
        ⟨todo', iden', acc'⟩
      have hspec := processProducts_spec conv rl current (speciesE current) layer done
        hcur (orderProducts (dedupFO (layer.map fun e => e.to_))) rest iden acc
        hprodnd hprodfacts
        (fun x hx => ⟨htodo x (List.mem_cons_of_mem current hx),
          fun hc => hcur_rest (hc ▸ hx)⟩)
        hrest_nd hiden hids hpw
        (fun r hr => Or.inl (hfrom r hr))
      rw [hpp] at hspec
      dsimp only at hspec
      rw [hpp]
      exact analyseGo_spec orderProducts conv rl speciesE pathways hord fuel todo'
        (done ++ [current]) iden' acc'
        hspec.2.2.2.2.2
        (fun x hx => by
          rw [List.mem_append]
          push_neg
          have := hspec.2.2.2.2.1 x hx
          refine ⟨this.1, ?_⟩
          intro hc
          rcases List.mem_singleton.1 hc with rfl
          exact this.2 rfl)
        hspec.1 hspec.2.1 hspec.2.2.1
        (fun r hr => by
          rw [List.mem_append]
          rcases hspec.2.2.2.1 r hr with h | h
          · exact Or.inl h
          · exact Or.inr (List.mem_singleton.2 h))

/-- C6, amended.  For every run of `analyse_reaction_network` seeded
with a duplicate-free list of reactant species — and for every
enumeration order of each layer's distinct destinations, covering both
ranking modes and Python's set-hashing nondeterminism — the emitted
reaction ids are exactly `1, 2, …` in discovery order (strictly
increasing, each newly processed destination receiving the next
sequential id), and no two rows share the same (reactant, product)
pair.  With duplicated seeds the pair-uniqueness fails; see the
counterexample. -/
theorem c6_reaction_ids (fuel : Nat) (orderProducts : List String → List String)
    (conv : ℚ) (rl : Bool) (speciesE : String → ℚ) (pathways : List PathwayRow)
    (reactants : List String)
    (hord : ∀ l, (orderProducts l).Perm l) (hnd : reactants.Nodup) :
    (analyse_reaction_network fuel orderProducts conv rl speciesE pathways
        reactants).map (fun r => r.reaction_id) =
      List.range' 1
        (analyse_reaction_network fuel orderProducts conv rl speciesE pathways
          reactants).length ∧
    List.Pairwise (fun r s : ReactionRow => ¬(r.from_ = s.from_ ∧ r.to_ = s.to_))
      (analyse_reaction_network fuel orderProducts conv rl speciesE pathways
        reactants) :=
  analyseGo_spec orderProducts conv rl speciesE pathways hord fuel reactants [] 1 []
    hnd (fun x _ => List.not_mem_nil x) rfl rfl List.Pairwise.nil
    (fun r hr => absurd hr (List.not_mem_nil r))

/-- Witness for the amended C6: the single-seed run over the pathway
`A → (transition) → B` assigns exactly reaction id 1 to the pair
`(A, B)`. -/
theorem c6_reaction_ids_witness :
    (analyse_reaction_network 5 id 1 false (fun _ => 0)
        [⟨["A", "T", "B"], [0, 5, 1], [true, false, true], [0, 1, 2], "f", 0⟩]
        ["A"]).map (fun r => r.reaction_id) =
      List.range' 1
        (analyse_reaction_network 5 id 1 false (fun _ => 0)
          [⟨["A", "T", "B"], [0, 5, 1], [true, false, true], [0, 1, 2], "f", 0⟩]
          ["A"]).length ∧
    List.Pairwise (fun r s : ReactionRow => ¬(r.from_ = s.from_ ∧ r.to_ = s.to_))
      (analyse_reaction_network 5 id 1 false (fun _ => 0)
        [⟨["A", "T", "B"], [0, 5, 1], [true, false, true], [0, 1, 2], "f", 0⟩]
        ["A"]) :=
  c6_reaction_ids 5 id 1 false (fun _ => 0)
    [⟨["A", "T", "B"], [0, 5, 1], [true, false, true], [0, 1, 2], "f", 0⟩]
    ["A"] (fun l => List.Perm.refl l) (by decide)

/-- Counterexample to C6 as stated: seeding the run with the duplicated
reactant list `["A", "A"]` processes `A` twice (the loop pops the
frontier without consulting `done`), so the pair `(A, B)` receives two
different reaction ids, 1 and 2. -/
theorem c6_counterexample :
    (analyse_reaction_network 5 id 1 false (fun _ => 0)
        [⟨["A", "T", "B"], [0, 5, 1], [true, false, true], [0, 1, 2], "f", 0⟩]
        ["A", "A"]).map (fun r => (r.from_, r.to_, r.reaction_id)) =
      [("A", "B", 1), ("A", "B", 2)] ∧
    ¬ List.Pairwise (fun r s : ReactionRow => ¬(r.from_ = s.from_ ∧ r.to_ = s.to_))
      (analyse_reaction_network 5 id 1 false (fun _ => 0)
        [⟨["A", "T", "B"], [0, 5, 1], [true, false, true], [0, 1, 2], "f", 0⟩]
        ["A", "A"]) :=
  ⟨by decide, by decide⟩

end Iacta
